import Mathlib

/-!
Verification development for the counter overflow compensation cache of the
telegraf tplink_gateway input plugin
(src/plugins/inputs/tplink_gateway/overflow_cache.go).

The Go code keeps two `map[string]uint64` tables inside `overflowCache`
(`values`: last raw reading per identity, `baseValues`: accumulated
correction offset per identity), detects wraparound in `checkOverflow`, and
persists `baseValues` as a flat JSON object via `dump`/`load`.

Shallow embedding choices:
  * `uint64` values are `Nat`; every arithmetic step of the Go code that can
    wrap is reduced `% 2 ^ 64` exactly where the Go `uint64` operation sits.
  * Go maps are association lists (`Table`) with first-match lookup and a
    replace-or-append `set`; a missing key reads as `0` via `Table.getD`,
    matching the zero-value-on-miss semantics of Go map indexing.
  * The filesystem is a partial map from path to `fileContent`; a file
    either holds a syntactically valid JSON object (`fileContent.object`,
    carried as its entry list in object order, each value either decodable
    as a uint64 — `jsonValue.num` — or a valid JSON value that is not a
    uint64 — `jsonValue.mismatched`), or content that `json.Unmarshal`
    rejects outright before storing anything (a syntax error, or a
    top-level value that is not an object) — `fileContent.malformed`; an
    absent path makes `ioutil.ReadFile` fail.
  * `json.Unmarshal` into the non-nil map `c.baseValues` follows its
    documented semantics: it reuses the existing map, keeping existing
    entries, and stores the key-value pairs of the JSON object into it in
    order (later duplicates overwrite earlier ones). Decoding is
    best-effort: a key whose value fails uint64 decoding is still written
    — with the element zero value `0` — the remaining keys are processed,
    and the first failure is returned as an error at the end. `load` is
    therefore modelled as returning both the (possibly mutated) cache and
    the error outcome.
  * The deferred `c.dump()` inside `checkOverflow` touches only the file,
    never the in-memory tables, and its error is only logged; the
    in-memory transition of `checkOverflow` is therefore modelled as a pure
    function of the cache state, and `dump`/`load` are modelled separately
    against the filesystem state.
-/

/-- The modulus of Go `uint64` arithmetic. -/
def UINT64 : Nat := 2 ^ 64

/-- A Go `map[string]uint64`, embedded as an association list. -/
def Table : Type := List (String × Nat)

instance : DecidableEq Table := by
  unfold Table
  infer_instance

/-- The empty map, as produced by Go `make(map[string]uint64)`. -/
def Table.empty : Table := []

/-- Lookup returning the stored value when the key is present (the `v, ok`
form of Go map indexing). -/
def Table.find? : Table → String → Option Nat
  | [], _ => none
  | (k₀, v₀) :: t, k => if k₀ = k then some v₀ else Table.find? t k

/-- Lookup defaulting an absent key to `0`, the zero-value-on-miss
semantics of plain Go map indexing `m[key]` for `uint64` values. -/
def Table.getD (t : Table) (k : String) : Nat := (t.find? k).getD 0

/-- Map assignment `m[key] = v`: replace the binding if the key is present,
append it otherwise. -/
def Table.set : Table → String → Nat → Table
  | [], k, v => [(k, v)]
  | (k₀, v₀) :: t, k, v => if k₀ = k then (k, v) :: t else (k₀, v₀) :: Table.set t k v

/-- The keys of a table, in storage order. -/
def Table.keys (t : Table) : List String := t.map Prod.fst

/-- State of Go struct `overflowCache`: the persistence path, the
per-identity last raw readings (`values`) and the per-identity accumulated
base offsets (`baseValues`). -/
structure overflowCache where
  filename : String
  values : Table
  baseValues : Table
deriving DecidableEq

/-- Go `new(overflowCache).init()`: both maps freshly allocated empty, the
filename still at its zero value. -/
def overflowCache.init : overflowCache :=
  { filename := "", values := Table.empty, baseValues := Table.empty }

/-- Core of Go `checkOverflow` after the identity has been joined: compare
the reading against the stored last raw value, on wraparound bump the base
offset by `increment` (Go `c.baseValues[key] += increment`, a wrapping
`uint64` addition; the explicit zero insertion for an absent key is
subsumed by the zero default of `Table.getD`), store the reading as the new
last raw value, and return the corrected value `currentValue +
c.baseValues[key]` (again a wrapping `uint64` addition) with the overflow
flag. -/
def checkOverflowAt (c : overflowCache) (key : String) (currentValue increment : Nat) :
    overflowCache × Nat × Bool :=
  let overflown : Bool := currentValue < Table.getD c.values key
  let c₁ : overflowCache :=
    if overflown then
      { c with baseValues :=
          Table.set c.baseValues key ((Table.getD c.baseValues key + increment) % UINT64) }
    else c
  let c₂ : overflowCache := { c₁ with values := Table.set c₁.values key currentValue }
  (c₂, (currentValue + Table.getD c₂.baseValues key) % UINT64, overflown)

/-- Go `checkOverflow(section, key, currentValue, increment)`: its first
statement rebinds `key = section + "_" + key`, then the body operates on
that joined identity. -/
def checkOverflow (c : overflowCache) (sectionName key : String)
    (currentValue increment : Nat) : overflowCache × Nat × Bool :=
  checkOverflowAt c (sectionName ++ "_" ++ key) currentValue increment

/-- Go `get`: run `checkOverflow` and discard the overflow flag (the cache
mutation of the receiver is made explicit in the returned state). -/
def overflowCache.get (c : overflowCache) (sectionName key : String)
    (currentValue increment : Nat) : overflowCache × Nat :=
  let r := checkOverflow c sectionName key currentValue increment
  (r.1, r.2.1)

/-- Feeding a list of raw readings of one identity to `checkOverflow` in
order, collecting the (corrected value, overflowed) results. -/
def observeSeq (c : overflowCache) (sectionName key : String) (increment : Nat) :
    List Nat → overflowCache × List (Nat × Bool)
  | [] => (c, [])
  | r :: rs =>
    let s₁ := checkOverflow c sectionName key r increment
    let s₂ := observeSeq s₁.1 sectionName key increment rs
    (s₂.1, (s₁.2.1, s₁.2.2) :: s₂.2)

/-- One value inside a syntactically valid JSON object: either a JSON
number that decodes as an unsigned 64-bit integer, or a valid JSON value
(a string, a negative or too-large number, a nested object, ...) on which
decoding into `uint64` fails with an `UnmarshalTypeError`. -/
inductive jsonValue where
  | num (n : Nat)
  | mismatched
deriving DecidableEq

/-- Whether decoding this value as a `uint64` succeeds. -/
def jsonValue.isNum : jsonValue → Bool
  | num _ => true
  | mismatched => false

/-- What `json.Unmarshal` stores into the map under a key holding this
value: the decoded number on success; on a decoding failure the element
zero value `0`, which the decoder has already placed into the map entry
by the time it records the `UnmarshalTypeError` and moves on to the next
key. -/
def jsonValue.store : jsonValue → Nat
  | num n => n
  | mismatched => 0

/-- Content of a candidate persistence file: either a syntactically valid
JSON object, carried as its entry list in object order with each value
classified by `jsonValue`, or content that `json.Unmarshal` rejects
outright before storing anything into the target map (a syntax error, or
a valid top-level value that is not an object). -/
inductive fileContent where
  | object (entries : List (String × jsonValue))
  | malformed
deriving DecidableEq

/-- The filesystem as the persistence layer sees it: each path either holds
a file with some content or is absent (`ioutil.ReadFile` then fails). -/
def FileSystem : Type := String → Option fileContent

/-- Merging a table of already-decoded uint64 entries into the existing
map `base`: existing entries are kept, and the key-value pairs are stored
in order. -/
def mergeTable (base entries : Table) : Table :=
  entries.foldl (fun acc kv => Table.set acc kv.1 kv.2) base

/-- Model of `json.Unmarshal` decoding a JSON object into the existing
non-nil map `base`: per its documentation the existing map is reused,
existing entries are kept, and the key-value pairs of the object are
stored into the map in order — best-effort, each key receiving the value
`jsonValue.store` actually placed by the decoder. -/
def mergeObject (base : Table) (entries : List (String × jsonValue)) : Table :=
  entries.foldl (fun acc kv => Table.set acc kv.1 (jsonValue.store kv.2)) base

/-- The JSON object produced by `json.Marshal` of a Go `map[string]uint64`:
every value is a decodable uint64 number. -/
def Table.toObject (t : Table) : List (String × jsonValue) :=
  t.map (fun kv => (kv.1, jsonValue.num kv.2))

/-- Go `load`: read the file at `c.filename`; a read failure (absent path)
is returned as an error with the cache untouched; content that JSON
unmarshalling rejects outright is returned as an error with the cache
untouched; a valid JSON object is unmarshalled best-effort into the
existing `baseValues` map, with an error returned exactly when some value
failed uint64 decoding. The result is the cache as left by the call,
paired with the error outcome (the message text is irrelevant to every
property and elided). -/
def overflowCache.load (c : overflowCache) (fs : FileSystem) :
    overflowCache × Except Unit Unit :=
  match fs c.filename with
  | none => (c, .error ())
  | some .malformed => (c, .error ())
  | some (.object entries) =>
      ({ c with baseValues := mergeObject c.baseValues entries },
       if entries.all (fun kv => jsonValue.isNum kv.2) then .ok () else .error ())

/-- Go `dump`: marshal `c.baseValues` as a flat JSON object and overwrite
the file at `c.filename` with it (the success path of `ioutil.WriteFile`;
a write failure leaves both filesystem and cache unchanged and is only
logged by the caller). -/
def overflowCache.dump (c : overflowCache) (fs : FileSystem) : FileSystem :=
  fun p =>
    if p = c.filename then some (fileContent.object (Table.toObject c.baseValues))
    else fs p

/-- Go `setup`: record the persistence path, then `load`; on a load error
only a diagnostic is logged and the cache keeps whatever in-memory state
the `load` call left behind. -/
def overflowCache.setup (c : overflowCache) (filename : String) (fs : FileSystem) :
    overflowCache :=
  (overflowCache.load { c with filename := filename } fs).1

/-! ### Lemmas about `Table` -/

theorem Table.find?_set_self (t : Table) (k : String) (v : Nat) :
    Table.find? (Table.set t k v) k = some v := by
  induction t with
  | nil => simp [Table.set, Table.find?]
  | cons kv t ih =>
    obtain ⟨k₀, v₀⟩ := kv
    by_cases h : k₀ = k
    · simp [Table.set, Table.find?, h]
    · simp [Table.set, Table.find?, h, ih]

theorem Table.find?_set_ne (t : Table) (k j : String) (v : Nat) (h : j ≠ k) :
    Table.find? (Table.set t k v) j = Table.find? t j := by
  induction t with
  | nil => simp [Table.set, Table.find?, Ne.symm h]
  | cons kv t ih =>
    obtain ⟨k₀, v₀⟩ := kv
    by_cases hk : k₀ = k
    · subst hk
      simp [Table.set, Table.find?, Ne.symm h]
    · by_cases hj : k₀ = j
      · simp [Table.set, Table.find?, hk, hj, h]
      · simp [Table.set, Table.find?, hk, hj, ih]

theorem Table.getD_set_self (t : Table) (k : String) (v : Nat) :
    Table.getD (Table.set t k v) k = v := by
  simp [Table.getD, Table.find?_set_self]

theorem Table.getD_set_ne (t : Table) (k j : String) (v : Nat) (h : j ≠ k) :
    Table.getD (Table.set t k v) j = Table.getD t j := by
  simp [Table.getD, Table.find?_set_ne t k j v h]

theorem Table.find?_eq_none_of_not_mem (t : Table) (k : String)
    (h : k ∉ Table.keys t) : Table.find? t k = none := by
  induction t with
  | nil => simp [Table.find?]
  | cons kv t ih =>
    obtain ⟨k₀, v₀⟩ := kv
    simp only [Table.keys, List.map_cons, List.mem_cons] at h
    push_neg at h
    simp only [Table.find?, if_neg (Ne.symm h.1)]
    exact ih (by simp [Table.keys, h.2])

theorem mergeTable_find?_not_mem (base entries : Table) (k : String)
    (h : k ∉ Table.keys entries) :
    Table.find? (mergeTable base entries) k = Table.find? base k := by
  induction entries generalizing base with
  | nil => simp [mergeTable]
  | cons kv rest ih =>
    obtain ⟨k₀, v₀⟩ := kv
    simp only [Table.keys, List.map_cons, List.mem_cons] at h
    push_neg at h
    simp only [mergeTable, List.foldl_cons]
    rw [show List.foldl (fun acc kv => Table.set acc kv.1 kv.2) (Table.set base k₀ v₀) rest =
          mergeTable (Table.set base k₀ v₀) rest from rfl]
    rw [ih (Table.set base k₀ v₀) (by simpa [Table.keys] using h.2)]
    exact Table.find?_set_ne base k₀ k v₀ h.1

theorem mergeTable_find?_mem_nodup (base entries : Table) (k : String)
    (hnd : (Table.keys entries).Nodup) (h : k ∈ Table.keys entries) :
    Table.find? (mergeTable base entries) k = Table.find? entries k := by
  induction entries generalizing base with
  | nil => simp [Table.keys] at h
  | cons kv rest ih =>
    obtain ⟨k₀, v₀⟩ := kv
    simp only [Table.keys, List.map_cons, List.nodup_cons] at hnd
    simp only [mergeTable, List.foldl_cons]
    rw [show List.foldl (fun acc kv => Table.set acc kv.1 kv.2) (Table.set base k₀ v₀) rest =
          mergeTable (Table.set base k₀ v₀) rest from rfl]
    by_cases hk : k₀ = k
    · subst hk
      rw [mergeTable_find?_not_mem _ rest k₀ (by simpa [Table.keys] using hnd.1)]
      simp [Table.find?_set_self, Table.find?]
    · simp only [Table.keys, List.map_cons, List.mem_cons] at h
      rcases h with h | h
      · exact absurd h.symm hk
      · rw [ih (Table.set base k₀ v₀) hnd.2 (by simpa [Table.keys] using h)]
        simp [Table.find?, hk]

theorem Table.toObject_all_isNum (t : Table) :
    (Table.toObject t).all (fun kv => jsonValue.isNum kv.2) = true := by
  induction t with
  | nil => rfl
  | cons kv t ih => simpa [Table.toObject, jsonValue.isNum] using ih

theorem mergeObject_toObject (base t : Table) :
    mergeObject base (Table.toObject t) = mergeTable base t := by
  induction t generalizing base with
  | nil => rfl
  | cons kv rest ih =>
    simp only [Table.toObject, List.map_cons, mergeObject, mergeTable, List.foldl_cons,
      jsonValue.store]
    exact ih (Table.set base kv.1 kv.2)

/-! ### Unfolding equations for `checkOverflow` -/

/-- Master equation: the full result of one `checkOverflowAt` call, with the
two cases (wraparound detected or not) made explicit. -/
theorem checkOverflowAt_eq (c : overflowCache) (key : String) (r inc : Nat) :
    checkOverflowAt c key r inc =
      (if r < Table.getD c.values key then
        ({ filename := c.filename,
           values := Table.set c.values key r,
           baseValues :=
             Table.set c.baseValues key ((Table.getD c.baseValues key + inc) % UINT64) },
         (r + (Table.getD c.baseValues key + inc) % UINT64) % UINT64, true)
       else
        ({ c with values := Table.set c.values key r },
         (r + Table.getD c.baseValues key) % UINT64, false)) := by
  by_cases h : r < Table.getD c.values key
  · simp [checkOverflowAt, h, Table.getD_set_self]
  · simp [checkOverflowAt, h]

theorem checkOverflow_eq (c : overflowCache) (s m : String) (r inc : Nat) :
    checkOverflow c s m r inc = checkOverflowAt c (s ++ "_" ++ m) r inc := rfl

/-! ### Claim theorems -/

/-- C9: the counter identity used internally by `checkOverflow` — the key
every lookup and update of `values` and `baseValues` goes through, hence
also the key under which `dump` persists the offset — is the string joining
the section name and the metric name with an underscore; the same
(section, metric) pair always yields the same identity (the joining is a
function), and for section `"status"` and metric `"uptime"` the identity is
`"status_uptime"`. -/
theorem identity_is_section_underscore_metric :
    (∀ (c : overflowCache) (s m : String) (r inc : Nat),
        checkOverflow c s m r inc = checkOverflowAt c (s ++ "_" ++ m) r inc)
    ∧ checkOverflow overflowCache.init "status" "uptime" 0 1000 =
        checkOverflowAt overflowCache.init "status_uptime" 0 1000
    ∧ "status" ++ "_" ++ "uptime" = "status_uptime" :=
  ⟨fun _ _ _ _ _ => rfl, rfl, rfl⟩

/-- C10: all arithmetic of `checkOverflow` is `uint64`, i.e. modulo
`2 ^ 64`: starting from a fresh cache, observing raw `5` and then raw `3`
with increment `2 ^ 64 - 1` reaches a state whose accumulated base offset
is `2 ^ 64 - 1`, and the second call returns corrected value
`(3 + (2 ^ 64 - 1)) % 2 ^ 64 = 2`, strictly below the current raw reading
`3`. -/
theorem corrected_value_mod_uint64_can_drop_below_raw :
    ((checkOverflow (checkOverflow overflowCache.init "a" "b" 5 (2 ^ 64 - 1)).1
        "a" "b" 3 (2 ^ 64 - 1)).2 = (2, true))
    ∧ ((checkOverflow (checkOverflow overflowCache.init "a" "b" 5 (2 ^ 64 - 1)).1
        "a" "b" 3 (2 ^ 64 - 1)).1.baseValues = [("a_b", 2 ^ 64 - 1)])
    ∧ ((checkOverflow (checkOverflow overflowCache.init "a" "b" 5 (2 ^ 64 - 1)).1
        "a" "b" 3 (2 ^ 64 - 1)).2.1 < 3) := by
  refine ⟨by decide, by decide, by decide⟩

/-- C4: on an identity never observed before (`values` has no entry for
it), `checkOverflow` returns the raw reading plus the
persisted-or-zero base offset (as the `uint64` sum) and never reports a
false overflow: the flag is `false`. -/
theorem first_observation_no_false_overflow (c : overflowCache) (s m : String)
    (r inc : Nat) (h : Table.find? c.values (s ++ "_" ++ m) = none) :
    (checkOverflow c s m r inc).2 =
      ((r + Table.getD c.baseValues (s ++ "_" ++ m)) % UINT64, false) := by
  rw [checkOverflow_eq, checkOverflowAt_eq]
  have hz : Table.getD c.values (s ++ "_" ++ m) = 0 := by simp [Table.getD, h]
  simp [hz]

/-- Witness for C4: on a fresh store, `Observe("a", "b", 0, 1000)` hits the
absent-entry case and returns `(0, false)`. -/
theorem first_observation_no_false_overflow_witness :
    Table.find? overflowCache.init.values ("a" ++ "_" ++ "b") = none
    ∧ (checkOverflow overflowCache.init "a" "b" 0 1000).2 =
        ((0 + Table.getD overflowCache.init.baseValues ("a" ++ "_" ++ "b")) % UINT64, false) :=
  ⟨by decide,
   first_observation_no_false_overflow overflowCache.init "a" "b" 0 1000 (by decide)⟩

/-- C3: in any `checkOverflow` call, the `baseValues` table changes exactly
when a wraparound (`currentRaw <` stored last raw, absent read as `0`) is
detected, and then only at the observed identity, where the offset moves by
exactly one `uint64` addition of the increment supplied to the call —
congruent to adding `n * increment` modulo `2 ^ 64` with `n ∈ {0, 1}` and
`n = 1` exactly on wraparound; on a non-overflow call the whole table is
unchanged, and entries of other identities are unchanged in every call. -/
theorem baseValues_change_only_on_wrap (c : overflowCache) (s m : String) (r inc : Nat) :
    ((checkOverflow c s m r inc).1.baseValues =
      if r < Table.getD c.values (s ++ "_" ++ m) then
        Table.set c.baseValues (s ++ "_" ++ m)
          ((Table.getD c.baseValues (s ++ "_" ++ m) + inc) % UINT64)
      else c.baseValues)
    ∧ ((checkOverflow c s m r inc).2.2 = decide (r < Table.getD c.values (s ++ "_" ++ m)))
    ∧ (∀ j, j ≠ s ++ "_" ++ m →
        Table.find? (checkOverflow c s m r inc).1.baseValues j =
          Table.find? c.baseValues j)
    ∧ (∃ n, n ≤ 1 ∧ (n = 1 ↔ r < Table.getD c.values (s ++ "_" ++ m)) ∧
        Table.getD (checkOverflow c s m r inc).1.baseValues (s ++ "_" ++ m) ≡
          Table.getD c.baseValues (s ++ "_" ++ m) + n * inc [MOD UINT64]) := by
  rw [checkOverflow_eq, checkOverflowAt_eq]
  by_cases h : r < Table.getD c.values (s ++ "_" ++ m)
  · refine ⟨by simp [h], by simp [h], ?_, ?_⟩
    · intro j hj
      simp only [if_pos h]
      exact Table.find?_set_ne c.baseValues (s ++ "_" ++ m) j _ hj
    · refine ⟨1, le_refl 1, by simp [h], ?_⟩
      simp only [if_pos h, Table.getD_set_self, one_mul]
      exact (Nat.mod_modEq _ UINT64)
  · refine ⟨by simp [h], by simp [h], ?_, ?_⟩
    · intro j hj
      simp [h]
    · exact ⟨0, Nat.zero_le 1, by simp [h], by simp [h, Nat.ModEq.refl]⟩

/-- Witness for C3: a concrete wraparound call (`7` then raw `0`) leaves
the entry of the unrelated identity `"x"` untouched. -/
theorem baseValues_change_only_on_wrap_witness :
    ("x" : String) ≠ "a" ++ "_" ++ "b"
    ∧ Table.find? (checkOverflow overflowCache.init "a" "b" 0 7).1.baseValues "x" =
        Table.find? overflowCache.init.baseValues "x" :=
  ⟨by decide,
   (baseValues_change_only_on_wrap overflowCache.init "a" "b" 0 7).2.2.1 "x" (by decide)⟩

/-- C2 counterexample: on a fresh store with increment `1000`, after the
raw readings `[100, 50]` the base offset is already `1000`, so continuing
with raw `5` detects a second wraparound (`5 < 50`) and returns
`(2005, true)`, not `(1005, true)` as claimed. -/
theorem observeSeq_continuation_counterexample :
    ((observeSeq overflowCache.init "a" "b" 1000 [100, 50, 5]).2 =
      [(100, false), (1050, true), (2005, true)])
    ∧ ¬((observeSeq overflowCache.init "a" "b" 1000 [100, 50, 5]).2 =
      [(100, false), (1050, true), (1005, true)]) := by
  refine ⟨by decide, by decide⟩

/-- C2 amended: on a fresh store with increment `1000`, raws `[100, 50]`
yield `[(100, false), (1050, true)]`; continuing with raw `5` yields
`(2005, true)`, and repeating the same raw `5` yields `(2005, false)` — an
unchanged raw value is not treated as overflow. -/
theorem observeSeq_single_wrap_then_steady :
    (observeSeq overflowCache.init "a" "b" 1000 [100, 50, 5, 5]).2 =
      [(100, false), (1050, true), (2005, true), (2005, false)] := by
  decide

/-- Auxiliary induction for C5, generalised over a starting cache whose
base offset for the observed identity is zero and whose stored last raw
value does not exceed the first reading. -/
theorem observeSeq_noWrap_aux (s m : String) (inc : Nat) (raws : List Nat) :
    ∀ c : overflowCache,
      Table.getD c.baseValues (s ++ "_" ++ m) = 0 →
      (∀ r₀, raws.head? = some r₀ → Table.getD c.values (s ++ "_" ++ m) ≤ r₀) →
      raws.Chain' (· ≤ ·) →
      (∀ r ∈ raws, r < inc) →
      inc ≤ UINT64 →
      (observeSeq c s m inc raws).2 = raws.map (fun r => (r, false)) := by
  induction raws with
  | nil => intro c _ _ _ _ _; simp [observeSeq]
  | cons r rs ih =>
    intro c hb hhead hchain hlt hinc
    have hnw : ¬(r < Table.getD c.values (s ++ "_" ++ m)) :=
      not_lt.mpr (hhead r rfl)
    have hr : r < UINT64 := lt_of_lt_of_le (hlt r (List.mem_cons_self r rs)) hinc
    have hchain' := List.chain'_cons'.mp hchain
    simp only [observeSeq, checkOverflow_eq, checkOverflowAt_eq, if_neg hnw, hb,
      Nat.add_zero, Nat.mod_eq_of_lt hr, List.map_cons]
    rw [ih { c with values := Table.set c.values (s ++ "_" ++ m) r } hb
      (fun r₀ hr₀ => by
        rw [Table.getD_set_self]
        exact hchain'.1 r₀ hr₀)
      hchain'.2
      (fun x hx => hlt x (List.mem_cons_of_mem r hx))
      hinc]

/-- C5: feeding any non-decreasing raw-value sequence whose values stay
below the increment to `checkOverflow` on a fresh store returns the raw
values themselves as corrected values, with the overflow flag `false` on
every call. -/
theorem noWrap_corrected_eq_raw (s m : String) (inc : Nat) (raws : List Nat)
    (hchain : raws.Chain' (· ≤ ·)) (hlt : ∀ r ∈ raws, r < inc)
    (hinc : inc ≤ UINT64) :
    (observeSeq overflowCache.init s m inc raws).2 =
      raws.map (fun r => (r, false)) :=
  observeSeq_noWrap_aux s m inc raws overflowCache.init rfl
    (fun r₀ _ => Nat.zero_le r₀) hchain hlt hinc

/-- Witness for C5 at the sequence `[0, 1, 2]` with increment `1000`. -/
theorem noWrap_corrected_eq_raw_witness :
    List.Chain' (· ≤ ·) [0, 1, 2] ∧ (∀ r ∈ [0, 1, 2], r < 1000) ∧ 1000 ≤ UINT64
    ∧ (observeSeq overflowCache.init "a" "b" 1000 [0, 1, 2]).2 =
        [0, 1, 2].map (fun r => (r, false)) :=
  ⟨by simp [List.chain'_cons], by decide, by decide,
   noWrap_corrected_eq_raw "a" "b" 1000 [0, 1, 2] (by simp [List.chain'_cons])
     (by decide) (by decide)⟩

/-- The corrected value is the raw reading plus the post-call base offset,
reduced modulo `2 ^ 64`. -/
theorem checkOverflowAt_out (c : overflowCache) (key : String) (r inc : Nat) :
    (checkOverflowAt c key r inc).2.1 =
      (r + Table.getD (checkOverflowAt c key r inc).1.baseValues key) % UINT64 := by
  rw [checkOverflowAt_eq]
  by_cases h : r < Table.getD c.values key
  · simp [h, Table.getD_set_self]
  · simp [h]

/-- The base offset of the observed identity after a call. -/
theorem checkOverflowAt_base_getD (c : overflowCache) (key : String) (r inc : Nat) :
    Table.getD (checkOverflowAt c key r inc).1.baseValues key =
      if r < Table.getD c.values key then
        (Table.getD c.baseValues key + inc) % UINT64
      else Table.getD c.baseValues key := by
  rw [checkOverflowAt_eq]
  by_cases h : r < Table.getD c.values key
  · simp [h, Table.getD_set_self]
  · simp [h]

/-- After a call, the stored last raw value of the observed identity is the
reading just supplied. -/
theorem checkOverflowAt_values_getD (c : overflowCache) (key : String) (r inc : Nat) :
    Table.getD (checkOverflowAt c key r inc).1.values key = r := by
  rw [checkOverflowAt_eq]
  by_cases h : r < Table.getD c.values key
  · simp [h, Table.getD_set_self]
  · simp [h, Table.getD_set_self]

/-- C1 counterexample: on a fresh store with increment `2 ^ 64 - 1`, the
raw readings `2 ^ 64 - 2` then `3` both stay below the increment and
exactly one wraparound occurs between the two calls, yet the `uint64`
addition wraps and the second corrected value `2` is strictly below the
first corrected value `2 ^ 64 - 2`. -/
theorem monotone_across_wrap_counterexample :
    ((checkOverflow overflowCache.init "a" "b" (2 ^ 64 - 2) (2 ^ 64 - 1)).2 =
        (2 ^ 64 - 2, false))
    ∧ ((checkOverflow (checkOverflow overflowCache.init "a" "b" (2 ^ 64 - 2) (2 ^ 64 - 1)).1
          "a" "b" 3 (2 ^ 64 - 1)).2 = (2, true))
    ∧ (2 ^ 64 - 2 < 2 ^ 64 - 1) ∧ (3 < 2 ^ 64 - 1)
    ∧ ¬((checkOverflow overflowCache.init "a" "b" (2 ^ 64 - 2) (2 ^ 64 - 1)).2.1 ≤
        (checkOverflow (checkOverflow overflowCache.init "a" "b" (2 ^ 64 - 2) (2 ^ 64 - 1)).1
          "a" "b" 3 (2 ^ 64 - 1)).2.1) := by
  refine ⟨by decide, by decide, by decide, by decide, by decide⟩

/-- C1 amended: across two consecutive `checkOverflow` calls of one
identity in which at most one wraparound occurs (always the case for the
detector: the later call detects either zero or one) and the raw readings
stay below the increment, the later corrected value is at least the
earlier one, provided the accumulated base offset stays far enough from
`2 ^ 64` that no `uint64` addition wraps (`baseOffset + 3 * increment ≤
2 ^ 64`). -/
theorem checkOverflow_monotone_of_no_uint64_overflow
    (c : overflowCache) (s m : String) (r₁ r₂ inc : Nat)
    (h₁ : r₁ < inc) (h₂ : r₂ < inc)
    (hb : Table.getD c.baseValues (s ++ "_" ++ m) + 3 * inc ≤ UINT64) :
    (checkOverflow c s m r₁ inc).2.1 ≤
      (checkOverflow (checkOverflow c s m r₁ inc).1 s m r₂ inc).2.1 := by
  have hpos : 0 < inc := lt_of_le_of_lt (Nat.zero_le r₁) h₁
  simp only [checkOverflow_eq]
  set key := s ++ "_" ++ m with hkey
  set b₀ := Table.getD c.baseValues key with hb₀def
  have hout1 := checkOverflowAt_out c key r₁ inc
  have hbase1 := checkOverflowAt_base_getD c key r₁ inc
  have hval1 := checkOverflowAt_values_getD c key r₁ inc
  have hout2 := checkOverflowAt_out (checkOverflowAt c key r₁ inc).1 key r₂ inc
  have hbase2 := checkOverflowAt_base_getD (checkOverflowAt c key r₁ inc).1 key r₂ inc
  rw [hval1] at hbase2
  rw [hout1, hout2, hbase2, hbase1]
  by_cases hw₁ : r₁ < Table.getD c.values key
  · rw [if_pos hw₁, ← hb₀def]
    have hm₁ : (b₀ + inc) % UINT64 = b₀ + inc := Nat.mod_eq_of_lt (by omega)
    rw [hm₁]
    by_cases hw₂ : r₂ < r₁
    · rw [if_pos hw₂]
      have hm₂ : (b₀ + inc + inc) % UINT64 = b₀ + inc + inc :=
        Nat.mod_eq_of_lt (by omega)
      rw [hm₂, Nat.mod_eq_of_lt (by omega), Nat.mod_eq_of_lt (by omega)]
      omega
    · rw [if_neg hw₂]
      rw [Nat.mod_eq_of_lt (by omega), Nat.mod_eq_of_lt (by omega)]
      omega
  · rw [if_neg hw₁, ← hb₀def]
    by_cases hw₂ : r₂ < r₁
    · rw [if_pos hw₂]
      have hm₂ : (b₀ + inc) % UINT64 = b₀ + inc := Nat.mod_eq_of_lt (by omega)
      rw [hm₂, Nat.mod_eq_of_lt (by omega), Nat.mod_eq_of_lt (by omega)]
      omega
    · rw [if_neg hw₂]
      rw [Nat.mod_eq_of_lt (by omega), Nat.mod_eq_of_lt (by omega)]
      omega

/-- Witness for C1 amended: fresh store, increment `1000`, readings `100`
then `50`: the corrected values go `100` then `1050`. -/
theorem checkOverflow_monotone_of_no_uint64_overflow_witness :
    (100 < 1000) ∧ (50 < 1000)
    ∧ (Table.getD overflowCache.init.baseValues ("a" ++ "_" ++ "b") + 3 * 1000 ≤ UINT64)
    ∧ ((checkOverflow overflowCache.init "a" "b" 100 1000).2.1 ≤
        (checkOverflow (checkOverflow overflowCache.init "a" "b" 100 1000).1
          "a" "b" 50 1000).2.1) :=
  ⟨by decide, by decide, by decide,
   checkOverflow_monotone_of_no_uint64_overflow overflowCache.init "a" "b" 100 50 1000
     (by decide) (by decide) (by decide)⟩

/-- A filesystem with no files at all. -/
def emptyFS : FileSystem := fun _ => none

/-- A filesystem holding one persistence file at path `"p"` whose content
parses as the single-entry uint64 object `y ↦ 7`. -/
def oneFileFS : FileSystem :=
  fun q =>
    if q = "p" then some (fileContent.object (Table.toObject [("y", 7)])) else none

/-- A filesystem holding one persistence file at path `"p"` whose content
is a syntactically valid JSON object in which the value of `good` decodes
as a uint64 but the value of `bad` does not (such as the content
written as an object with good mapped to 1 and bad mapped to a string). -/
def typeErrorFS : FileSystem :=
  fun q =>
    if q = "p" then
      some (fileContent.object [("good", jsonValue.num 1), ("bad", jsonValue.mismatched)])
    else none

/-- A sample cache whose persistence path is `"p"` and whose base-offset
table holds two entries. -/
def sampleCache : overflowCache :=
  { filename := "p", values := Table.empty, baseValues := [("k1", 10), ("k2", 20)] }

/-- A cache whose persistence path is `"p"` and whose in-memory base-offset
table already holds the entry `x ↦ 5` before any load. -/
def priorCache : overflowCache :=
  { filename := "p", values := Table.empty, baseValues := [("x", 5)] }

/-- C7 counterexample: on a fresh cache, loading a file whose content is a
syntactically valid JSON object with the entries `good ↦ 1` and `bad ↦`
a non-uint64 value makes `load` return an error — yet the in-memory
base-offset table is no longer what it was before the call:
`json.Unmarshal` has best-effort stored `good ↦ 1` and set `bad ↦ 0`
before recording the type error, so the table is not exactly unchanged for
this class of malformed content. -/
theorem load_type_error_mutates_counterexample :
    ((overflowCache.load { overflowCache.init with filename := "p" } typeErrorFS).2 =
      Except.error ())
    ∧ ((overflowCache.load { overflowCache.init with filename := "p" }
          typeErrorFS).1.baseValues = [("good", 1), ("bad", 0)])
    ∧ (([("good", 1), ("bad", 0)] : Table) ≠ overflowCache.init.baseValues) := by
  refine ⟨rfl, by decide, by decide⟩

/-- C7 amended: when `load` fails because the file is missing or
unreadable, or its content is rejected outright by JSON unmarshalling
(a syntax error, or a top-level value that is not an object), the call
returns an error rather than a fatal condition and the in-memory
base-offset table is exactly what it was before the call — `setup` keeps
the cache unchanged apart from recording the filename. When the content
is a valid JSON object some of whose values fail uint64 decoding, `load`
still returns non-fatally with an error, but the table may have been
mutated: it holds the best-effort merge of the object's entries. -/
theorem load_failure_nonfatal (c : overflowCache) (fn : String) (fs : FileSystem) :
    ((fs fn = none ∨ fs fn = some fileContent.malformed) →
      ((overflowCache.load { c with filename := fn } fs).2 = Except.error ())
      ∧ overflowCache.setup c fn fs = { c with filename := fn }
      ∧ (overflowCache.setup c fn fs).baseValues = c.baseValues)
    ∧ (∀ entries, fs fn = some (fileContent.object entries) →
        (overflowCache.setup c fn fs).baseValues = mergeObject c.baseValues entries) := by
  constructor
  · rintro (h | h)
    · exact ⟨by simp [overflowCache.load, h],
        by simp [overflowCache.setup, overflowCache.load, h],
        by simp [overflowCache.setup, overflowCache.load, h]⟩
    · exact ⟨by simp [overflowCache.load, h],
        by simp [overflowCache.setup, overflowCache.load, h],
        by simp [overflowCache.setup, overflowCache.load, h]⟩
  · intro entries h
    simp [overflowCache.setup, overflowCache.load, h]

/-- Witness for C7 amended: loading from a filesystem with no files fails
and leaves the (empty) base-offset table of a fresh cache unchanged. -/
theorem load_failure_nonfatal_witness :
    (emptyFS "p" = none ∨ emptyFS "p" = some fileContent.malformed)
    ∧ (((overflowCache.load { overflowCache.init with filename := "p" } emptyFS).2 =
          Except.error ())
       ∧ overflowCache.setup overflowCache.init "p" emptyFS =
           { overflowCache.init with filename := "p" }
       ∧ (overflowCache.setup overflowCache.init "p" emptyFS).baseValues =
           overflowCache.init.baseValues) :=
  ⟨Or.inl rfl,
   (load_failure_nonfatal overflowCache.init "p" emptyFS).1 (Or.inl rfl)⟩

/-- C8 counterexample: with a prior in-memory entry `x ↦ 5` and a file
whose content parses as the object `{y ↦ 7}`, a successful `load` keeps
`x ↦ 5`: `json.Unmarshal` reuses the existing non-nil map and keeps its
entries, so the prior entry survives and the table is not replaced
wholesale — under the claim the lookup of `x` would have to be `none`. -/
theorem load_replaces_wholesale_counterexample :
    ((overflowCache.load priorCache oneFileFS).2 = Except.ok ())
    ∧ (Table.find? (overflowCache.load priorCache oneFileFS).1.baseValues "x" = some 5)
    ∧ (Table.find? (overflowCache.load priorCache oneFileFS).1.baseValues "y" = some 7)
    ∧ (some 5 ≠ (none : Option Nat)) := by
  refine ⟨rfl, by decide, by decide, by decide⟩

/-- C8 amended: a successful `load` merges the parsed file mapping into the
existing in-memory table (the documented `json.Unmarshal` treatment of a
non-nil map): identities absent from the file keep their prior bindings,
and — when the file's keys are duplicate-free — every identity present in
the file maps to the value recorded in the file afterwards. -/
theorem load_merges_file_entries (c : overflowCache) (fs : FileSystem) (entries : Table)
    (h : fs c.filename = some (fileContent.object (Table.toObject entries))) :
    (overflowCache.load c fs =
      ({ c with baseValues := mergeTable c.baseValues entries }, Except.ok ()))
    ∧ (∀ k, k ∉ Table.keys entries →
        Table.find? (mergeTable c.baseValues entries) k = Table.find? c.baseValues k)
    ∧ ((Table.keys entries).Nodup → ∀ k, k ∈ Table.keys entries →
        Table.find? (mergeTable c.baseValues entries) k = Table.find? entries k) := by
  refine ⟨?_, ?_, ?_⟩
  · simp [overflowCache.load, h, mergeObject_toObject, Table.toObject_all_isNum]
  · intro k hk
    exact mergeTable_find?_not_mem c.baseValues entries k hk
  · intro hnd k hk
    exact mergeTable_find?_mem_nodup c.baseValues entries k hnd hk

/-- Witness for C8 amended at the concrete cache and filesystem of the
counterexample. -/
theorem load_merges_file_entries_witness :
    (oneFileFS priorCache.filename =
      some (fileContent.object (Table.toObject [("y", 7)])))
    ∧ ((overflowCache.load priorCache oneFileFS =
        ({ priorCache with
           baseValues := mergeTable priorCache.baseValues [("y", 7)] }, Except.ok ()))
       ∧ (∀ k, k ∉ Table.keys [("y", 7)] →
           Table.find? (mergeTable priorCache.baseValues [("y", 7)]) k =
             Table.find? priorCache.baseValues k)
       ∧ ((Table.keys [("y", 7)]).Nodup → ∀ k, k ∈ Table.keys [("y", 7)] →
           Table.find? (mergeTable priorCache.baseValues [("y", 7)]) k =
             Table.find? [("y", 7)] k)) :=
  ⟨by decide,
   load_merges_file_entries priorCache oneFileFS [("y", 7)] (by decide)⟩

/-- C6: `dump` to the cache's path followed by `load` of a fresh cache
from the same path reproduces a base-offset mapping identical (same key
set, same values: equal lookups everywhere) to the one dumped. The dumped
table has duplicate-free keys, as every table serialized from a Go map
does. -/
theorem dump_load_round_trip (c : overflowCache) (fs : FileSystem)
    (hnd : (Table.keys c.baseValues).Nodup) :
    ((overflowCache.load { overflowCache.init with filename := c.filename }
        (overflowCache.dump c fs)).2 = Except.ok ())
    ∧ ∀ k, Table.find?
        (overflowCache.load { overflowCache.init with filename := c.filename }
          (overflowCache.dump c fs)).1.baseValues k = Table.find? c.baseValues k := by
  have hfile : overflowCache.dump c fs c.filename =
      some (fileContent.object (Table.toObject c.baseValues)) := by
    simp [overflowCache.dump]
  constructor
  · simp [overflowCache.load, hfile, Table.toObject_all_isNum]
  · intro k
    have hb : (overflowCache.load { overflowCache.init with filename := c.filename }
        (overflowCache.dump c fs)).1.baseValues = mergeTable Table.empty c.baseValues := by
      simp [overflowCache.load, hfile, mergeObject_toObject, overflowCache.init]
    rw [hb]
    by_cases hk : k ∈ Table.keys c.baseValues
    · exact mergeTable_find?_mem_nodup Table.empty c.baseValues k hnd hk
    · rw [mergeTable_find?_not_mem Table.empty c.baseValues k hk,
        Table.find?_eq_none_of_not_mem c.baseValues k hk]
      rfl

/-- Witness for C6 at a two-entry base-offset table. -/
theorem dump_load_round_trip_witness :
    (Table.keys sampleCache.baseValues).Nodup
    ∧ (((overflowCache.load { overflowCache.init with filename := sampleCache.filename }
          (overflowCache.dump sampleCache emptyFS)).2 = Except.ok ())
       ∧ ∀ k, Table.find?
           (overflowCache.load { overflowCache.init with filename := sampleCache.filename }
             (overflowCache.dump sampleCache emptyFS)).1.baseValues k =
           Table.find? sampleCache.baseValues k) :=
  ⟨by decide, dump_load_round_trip sampleCache emptyFS (by decide)⟩
